import Mathlib

/-!
A shallow embedding, in Lean 4, of the `warg` flag parser:
`warg/internal/parser/parser.go` (`Parser`, `Parse`, `processFlag`,
`FlagValue`, `ParseResult`, `Find`), the `Context` type with `NewContext`
and `Lookup`, and the `flags.FlagDefinition` record they consume.

Modelling conventions:
* Go slices become Lean lists; `[]*FlagValue` becomes the mutual
  inductive `FlagValueList` so that every function is structurally
  recursive and evaluates by `rfl`/`decide`.
* A Go `map[string]*flags.FlagDefinition` becomes an association list
  where insertion prepends, so the front-most binding is the most recent
  write (Go map assignment overwrites).
* Go pointer identity of `*FlagValue` allocations is modelled by a fresh
  `id : Nat` stamped on each `FlagValue` the parser allocates; two
  structurally equal nodes from distinct allocations carry distinct ids.
* In-place mutation `targetParent.Children = append(...)` is modelled by
  functional update at a path (list of child indices) into the result
  tree; the parent stack holds such paths instead of pointers.
* The context stack and parent stack are kept top-first (Go appends at
  the end and indexes from the end; here push is `cons` and the top is
  the head), so Go's downward index loop is a head-first scan.
* Errors built with `fmt.Errorf` become `Except.error` carrying the
  formatted message string.
-/

namespace Warg

/-- Model of `flags.FlagDefinition`: a flag's declared names, whether it is a
switch (as opposed to a value flag), its description, and its child
definitions. -/
inductive FlagDefinition where
  | mk (Names : List String) (Switch : Bool) (Description : String)
      (Children : List FlagDefinition) : FlagDefinition

/-- Field accessor for `FlagDefinition.Names`. -/
def FlagDefinition.Names : FlagDefinition → List String
  | .mk n _ _ _ => n

/-- Field accessor for `FlagDefinition.Switch`. -/
def FlagDefinition.Switch : FlagDefinition → Bool
  | .mk _ s _ _ => s

/-- Field accessor for `FlagDefinition.Description`. -/
def FlagDefinition.Description : FlagDefinition → String
  | .mk _ _ d _ => d

/-- Field accessor for `FlagDefinition.Children`. -/
def FlagDefinition.Children : FlagDefinition → List FlagDefinition
  | .mk _ _ _ c => c

mutual
/-- Model of `parser.FlagValue`: a parsed flag occurrence. `id` models the Go
pointer identity of the allocation `&FlagValue{...}` in `processFlag`:
each allocation gets a fresh id, so distinct nodes with equal fields are
still distinguishable, exactly as distinct Go pointers are. -/
inductive FlagValue where
  | mk (Definition : FlagDefinition) (Present : Bool) (Value : String)
      (id : Nat) (Children : FlagValueList) : FlagValue
/-- The slice `[]*FlagValue`. -/
inductive FlagValueList where
  | nil : FlagValueList
  | cons (head : FlagValue) (tail : FlagValueList) : FlagValueList
end

/-- Field accessor for `FlagValue.Definition`. -/
def FlagValue.Definition : FlagValue → FlagDefinition
  | .mk d _ _ _ _ => d

/-- Field accessor for `FlagValue.Present`. -/
def FlagValue.Present : FlagValue → Bool
  | .mk _ p _ _ _ => p

/-- Field accessor for `FlagValue.Value`. -/
def FlagValue.Value : FlagValue → String
  | .mk _ _ v _ _ => v

/-- Field accessor for `FlagValue.id`. -/
def FlagValue.id : FlagValue → Nat
  | .mk _ _ _ i _ => i

/-- Field accessor for `FlagValue.Children`. -/
def FlagValue.Children : FlagValue → FlagValueList
  | .mk _ _ _ _ c => c

/-- Go `append(slice, fv)` on a `[]*FlagValue`. -/
def FlagValueList.append : FlagValueList → FlagValue → FlagValueList
  | .nil, fv => .cons fv .nil
  | .cons h t, fv => .cons h (t.append fv)

/-- Go `len` of a `[]*FlagValue`. -/
def FlagValueList.length : FlagValueList → Nat
  | .nil => 0
  | .cons _ t => t.length + 1

/-- Index into a `[]*FlagValue`. -/
def FlagValueList.get? : FlagValueList → Nat → Option FlagValue
  | .nil, _ => none
  | .cons h _, 0 => some h
  | .cons _ t, n + 1 => t.get? n

/-- Model of `parser.ParseResult`: the forest of parsed root-level flags. -/
structure ParseResult where
  Flags : FlagValueList

mutual
/-- Model of `(fv *FlagValue) Find(name)`: the node itself if one of its
definition's names matches, else the first match among its children. -/
def FlagValue.Find : FlagValue → String → Option FlagValue
  | .mk d p v i cs, name =>
    if name ∈ d.Names then some (.mk d p v i cs)
    else FlagValueList.Find cs name
/-- The loop over a `[]*FlagValue` used by both `ParseResult.Find` and
the child search in `FlagValue.Find`. -/
def FlagValueList.Find : FlagValueList → String → Option FlagValue
  | .nil, _ => none
  | .cons fv rest, name =>
    match FlagValue.Find fv name with
    | some found => some found
    | none => FlagValueList.Find rest name
end

/-- Model of `(r *ParseResult) Find(name)`: first match over the root flags. -/
def ParseResult.Find (r : ParseResult) (name : String) : Option FlagValue :=
  FlagValueList.Find r.Flags name

mutual
/-- All nodes of a subtree in the visit order of `Find`: the node first,
then its children left to right, recursively (preorder). -/
def FlagValue.nodes : FlagValue → List FlagValue
  | .mk d p v i cs => .mk d p v i cs :: FlagValueList.nodes cs
/-- Preorder node list of a forest. -/
def FlagValueList.nodes : FlagValueList → List FlagValue
  | .nil => []
  | .cons fv rest => FlagValue.nodes fv ++ FlagValueList.nodes rest
end

/-- Preorder node list of a whole parse result. -/
def ParseResult.nodes (r : ParseResult) : List FlagValue :=
  FlagValueList.nodes r.Flags

/-- The map `map[string]*flags.FlagDefinition` of one context level, as
an association list whose front-most binding is the most recent write. -/
abbrev FlagMap := List (String × FlagDefinition)

/-- Go map read `m[name]`: the most recent binding of `name`, if any. -/
def lookupFlagMap : FlagMap → String → Option FlagDefinition
  | [], _ => none
  | (k, d) :: rest, name => if k = name then some d else lookupFlagMap rest name

/-- Model of `parser.Context`: one level's flag map, and the parent pointer
(`root` for a nil parent, `child` otherwise). -/
inductive Context where
  | root (Flags : FlagMap) : Context
  | child (Flags : FlagMap) (Parent : Context) : Context

/-- Field accessor for `Context.Flags`. -/
def Context.Flags : Context → FlagMap
  | .root f => f
  | .child f _ => f

/-- Name registration of `NewContext(defs, parent)`: register every name of every definition,
in order; a later registration of the same name overwrites the earlier
one, exactly like Go map assignment. -/
def buildFlagMap (defs : List FlagDefinition) : FlagMap :=
  defs.foldl (fun m d => d.Names.foldl (fun m n => (n, d) :: m) m) []

/-- Model of `NewContext(defs, parent)`. -/
def NewContext (defs : List FlagDefinition) (parent : Option Context) : Context :=
  match parent with
  | none => .root (buildFlagMap defs)
  | some p => .child (buildFlagMap defs) p

/-- Model of `(c *Context) Lookup(name)`: search this level's map, then the
parent chain. -/
def Context.Lookup : Context → String → Option FlagDefinition
  | .root f, name => lookupFlagMap f name
  | .child f p, name =>
    match lookupFlagMap f name with
    | some d => some d
    | none => p.Lookup name

/-- Model of `strings.HasPrefix` on the character lists of the two strings (the
tokens of interest are ASCII, where Go's byte view and the character
view coincide). -/
def goHasPrefix : List Char → List Char → Bool
  | _, [] => true
  | [], _ :: _ => false
  | c :: cs, p :: ps => c = p && goHasPrefix cs ps

/-- Model of `strings.HasPrefix(s, p)`. -/
def hasPrefix (s p : String) : Bool :=
  goHasPrefix s.toList p.toList

/-- The mutable scan state of one `Parse` call: the result forest, the
context stack and parent stack (top-first), and the next allocation id. -/
structure ParseState where
  result : FlagValueList
  contextStack : List Context
  parentStack : List (Option (List Nat))
  nextId : Nat

/-- Top of the stack, `(*contextStack)[len(*contextStack)-1]`; the stack is never empty in
any state reachable from `Parse`, so the default is unreachable. -/
def ParseState.currentContext (st : ParseState) : Context :=
  st.contextStack.headD (.root [])

/-- Replace the `i`-th node of a forest. -/
def modifyAt (l : FlagValueList) (i : Nat) (f : FlagValue → FlagValue) : FlagValueList :=
  match l, i with
  | .nil, _ => .nil
  | .cons h t, 0 => .cons (f h) t
  | .cons h t, n + 1 => .cons h (modifyAt t n f)

/-- Append `fv` at the position addressed by `path`: an empty path
appends to this list, `i :: rest` descends into the children of node
`i`. Models `targetParent.Children = append(targetParent.Children, fv)`
through the pointer `targetParent`. -/
def attachUnder : FlagValueList → List Nat → FlagValue → FlagValueList
  | l, [], fv => l.append fv
  | l, i :: rest, fv =>
    modifyAt l i (fun n =>
      match n with
      | .mk d p v idn cs => .mk d p v idn (attachUnder cs rest fv))

/-- Number of children already present at the position addressed by
`path` (the root list for the empty path). -/
def childCountAt : FlagValueList → List Nat → Nat
  | l, [] => l.length
  | l, i :: rest =>
    match l.get? i with
    | none => 0
    | some (.mk _ _ _ _ cs) => childCountAt cs rest

/-- Attach a freshly allocated node either under the target parent
(`some path`) or to `result.Flags` (`none`), returning the updated
forest and the path of the new node. -/
def attach (root : FlagValueList) (parent : Option (List Nat)) (fv : FlagValue) :
    FlagValueList × List Nat :=
  match parent with
  | none => (root.append fv, [root.length])
  | some p => (attachUnder root p fv, p ++ [childCountAt root p])

/-- The loop in `processFlag` that walks the context stack from the top
down looking for the level whose own map declares `flag`; at index
`i > 0` (that is, while entries remain below) the matching level's
parent-stack entry becomes the target parent. -/
def findTargetParent : List Context → List (Option (List Nat)) → String →
    Option (List Nat)
  | [], _, _ => none
  | _ :: _, [], _ => none
  | ctx :: cRest, par :: pRest, flag =>
    if (lookupFlagMap ctx.Flags flag).isSome then
      (if cRest.isEmpty then none else par)
    else findTargetParent cRest pRest flag

/-- Model of `(p *Parser) processFlag(flag, args, nextArgIdx, ...)`: resolve one
flag name against the current context chain, attach its `FlagValue`, and
report how many extra argument tokens were consumed. `nextArgs` is the
suffix `args[nextArgIdx:]`. -/
def processFlag (flag : String) (nextArgs : List String) (st : ParseState) :
    Except String (Nat × ParseState) :=
  match st.currentContext.Lookup flag with
  | none => .error ("unknown flag: " ++ flag)
  | some d =>
    let targetParent := findTargetParent st.contextStack st.parentStack flag
    if d.Switch then
      let fv := FlagValue.mk d true "" st.nextId .nil
      let attached := attach st.result targetParent fv
      let st' : ParseState :=
        { result := attached.1, contextStack := st.contextStack,
          parentStack := st.parentStack, nextId := st.nextId + 1 }
      if d.Children.isEmpty then
        .ok (0, st')
      else
        .ok (0, { st' with
          contextStack := NewContext d.Children (some st.currentContext) :: st'.contextStack,
          parentStack := some attached.2 :: st'.parentStack })
    else
      match nextArgs with
      | [] => .error ("flag " ++ flag ++ " requires a value")
      | v :: _ =>
        let fv := FlagValue.mk d true v st.nextId .nil
        let attached := attach st.result targetParent fv
        .ok (1, { st with result := attached.1, nextId := st.nextId + 1 })

/-- The inner loop of `Parse` over the letters of a combined short-flag
token `-abc`: each letter is processed as `-x` against the current
state; the first letter that consumes a value token ends the group (the
remaining letters are skipped, unresolved). -/
def processCombined (letters : List Char) (nextArgs : List String)
    (st : ParseState) : Except String (Nat × ParseState) :=
  match letters with
  | [] => .ok (0, st)
  | c :: cs =>
    match processFlag ("-" ++ String.singleton c) nextArgs st with
    | .error e => .error e
    | .ok (consumed, st') =>
      if consumed > 0 then .ok (consumed, st')
      else processCombined cs nextArgs st'

/-- The scan loop of `(p *Parser) Parse(args)`, recursing on the suffix
of tokens still to process. `--` stops the scan; tokens without a `-`
are skipped; a one-dash token longer than two characters is a combined
group; anything else is a single flag. The `fuel` argument bounds the
number of loop iterations purely to make the recursion structural;
`Parse` passes the token count, which always suffices because every
iteration consumes at least one token, so the `0, _ :: _` case is
unreachable from `Parse`. -/
def parseLoop : Nat → List String → ParseState → Except String ParseState
  | _, [], st => .ok st
  | 0, _ :: _, st => .ok st
  | fuel + 1, arg :: rest, st =>
    if arg = "--" then .ok st
    else if hasPrefix arg "-" = false then parseLoop fuel rest st
    else if hasPrefix arg "-" = true ∧ hasPrefix arg "--" = false ∧ 2 < arg.length then
      match processCombined (arg.toList.drop 1) rest st with
      | .error e => .error e
      | .ok (consumed, st') => parseLoop fuel (List.drop consumed rest) st'
    else
      match processFlag arg rest st with
      | .error e => .error e
      | .ok (consumed, st') => parseLoop fuel (List.drop consumed rest) st'

/-- Model of `parser.Parser`: holds the root context built by `NewParser`. -/
structure Parser where
  rootContext : Context

/-- Model of `NewParser(defs)`. -/
def NewParser (defs : List FlagDefinition) : Parser :=
  ⟨NewContext defs none⟩

/-- The initial scan state of one `Parse` call. -/
def initState (root : Context) : ParseState :=
  { result := .nil, contextStack := [root], parentStack := [none], nextId := 0 }

/-- Model of `(p *Parser) Parse(args)`. -/
def Parser.Parse (p : Parser) (args : List String) : Except String ParseResult :=
  match parseLoop args.length args (initState p.rootContext) with
  | .error e => .error e
  | .ok st => .ok ⟨st.result⟩

/-- Convenience form of `NewParser(defs).Parse(args)`. -/
def Parse (defs : List FlagDefinition) (args : List String) :
    Except String ParseResult :=
  (NewParser defs).Parse args

/-! ## Fixture definitions used by the concrete statements -/

/-- A root-level switch `-v`/`--verbose`. -/
def specV : FlagDefinition := .mk ["-v", "--verbose"] true "Verbose output" []

/-- A child switch `-c`/`--commit`. -/
def specC : FlagDefinition := .mk ["-c", "--commit"] true "Commit changes" []

/-- A context switch `-G`/`--git` with child `-c`. -/
def specG : FlagDefinition := .mk ["-G", "--git"] true "Git operations" [specC]

/-- A root-level switch `-a`. -/
def specA : FlagDefinition := .mk ["-a"] true "Switch a" []

/-- A root-level switch `-b`. -/
def specB : FlagDefinition := .mk ["-b"] true "Switch b" []

/-- A root-level switch `-c` (independent of `specC`). -/
def specCsw : FlagDefinition := .mk ["-c"] true "Switch c" []

/-- A root-level value flag `-n`/`--name`. -/
def specN : FlagDefinition := .mk ["-n", "--name"] false "User name" []

/-- A definition with a non-empty `Children` list but `Switch = false`,
as a caller may hand directly to `NewParser` (for instance from JSON,
which `ParseJSONDefinitions` decodes without any normalization). -/
def specGbad : FlagDefinition := .mk ["-G"] false "Git operations" [specC]

/-- First of two definitions declaring the same name `-v`. -/
def specDupA : FlagDefinition := .mk ["-v"] true "first" []

/-- Second of two definitions declaring the same name `-v`. -/
def specDupB : FlagDefinition := .mk ["-v"] true "second" []

/-! ## Claims -/

/-- C3: a one-dash token of more than one letter is split into
one-character flags resolved left to right against the top-of-stack
context of the moment. Three independent root switches `-a`,`-b`,`-c`
parsed from `["-abc"]` give exactly three top-level present `FlagValue`s
in the order `a`,`b`,`c`; and in `["-Gc"]` the letter `G` opens the git
context so that `c` resolves inside it and lands under `-G`'s node. -/
theorem spec_C3 :
    (Parse [specA, specB, specCsw] ["-abc"] =
      .ok ⟨.cons (.mk specA true "" 0 .nil)
            (.cons (.mk specB true "" 1 .nil)
              (.cons (.mk specCsw true "" 2 .nil) .nil))⟩) ∧
    (Parse [specG, specV] ["-Gc"] =
      .ok ⟨.cons (.mk specG true "" 0
              (.cons (.mk specC true "" 1 .nil) .nil)) .nil⟩) :=
  ⟨rfl, rfl⟩

/-- C9: the token `--` stops the scan: for every fuel, state and suffix,
`parseLoop` returns the result built so far, so no later token is ever
resolved or raises an error; concretely `["-v","--","-n"]` parses to
just the `-v` node although `-n` is not declared anywhere. -/
theorem spec_C9 :
    (∀ (fuel : Nat) (post : List String) (st : ParseState),
      parseLoop fuel ("--" :: post) st = .ok st) ∧
    Parse [specV] ["-v", "--", "-n"] =
      .ok ⟨.cons (.mk specV true "" 0 .nil) .nil⟩ := by
  constructor
  · intro fuel post st
    cases fuel with
    | zero => rfl
    | succ n => simp [parseLoop]
  · rfl

/-- C7: a two-character flag token that `Lookup` cannot resolve in the
root context makes `Parse` stop at once with an `unknown flag` error
naming the literal token; no result is produced and the remaining
tokens are never processed. -/
theorem spec_C7 (defs : List FlagDefinition) (rest : List String)
    (h : (NewContext defs none).Lookup "-x" = none) :
    Parse defs ("-x" :: rest) = .error "unknown flag: -x" := by
  simp [Parse, Parser.Parse, NewParser, initState, parseLoop, processFlag,
    ParseState.currentContext, hasPrefix, goHasPrefix, h,
    show "-x".length = 2 from rfl]

/-- C7 witness: `["-x"]` against a context declaring only `-v`. -/
theorem spec_C7_witness :
    Parse [specV] ["-x"] = .error "unknown flag: -x" :=
  spec_C7 [specV] [] rfl

/-- C8: a resolved value flag (`Switch = false`) with no following token
left to supply its value makes `Parse` fail with a missing-value error
naming the flag, and no result is produced. -/
theorem spec_C8 (defs : List FlagDefinition) (d : FlagDefinition)
    (h1 : (NewContext defs none).Lookup "-n" = some d)
    (h2 : d.Switch = false) :
    Parse defs ["-n"] = .error "flag -n requires a value" := by
  simp [Parse, Parser.Parse, NewParser, initState, parseLoop, processFlag,
    ParseState.currentContext, hasPrefix, goHasPrefix, h1, h2,
    show "-n".length = 2 from rfl]

/-- C8 witness: `["-n"]` where `-n` is a declared value flag. -/
theorem spec_C8_witness :
    Parse [specN] ["-n"] = .error "flag -n requires a value" :=
  spec_C8 [specN] specN rfl rfl

/-- C10: a token starting with `--` (other than `--` itself) is looked
up verbatim, `=` included, as a single key; when that whole string is
declared nowhere, `Parse` fails with an unknown-flag error naming the
full token — even if a proper segment of it (such as `--name`) is a
declared flag, as the witness shows. -/
theorem spec_C10 (defs : List FlagDefinition) (t : String) (rest : List String)
    (h1 : hasPrefix t "-" = true) (h2 : hasPrefix t "--" = true)
    (h3 : ¬ t = "--") (h4 : (NewContext defs none).Lookup t = none) :
    Parse defs (t :: rest) = .error ("unknown flag: " ++ t) := by
  simp [Parse, Parser.Parse, NewParser, initState, parseLoop, processFlag,
    ParseState.currentContext, h1, h2, h3, h4]

/-- C10 witness: `["--name=x"]` against definitions declaring `--name`
as a value flag; the token resolves as the whole string and fails. -/
theorem spec_C10_witness :
    Parse [specN] ["--name=x"] = .error ("unknown flag: " ++ "--name=x") :=
  spec_C10 [specN] "--name=x" [] rfl rfl (by decide) rfl

/-- C4: inside a combined short-flag group, a letter that resolves to a
value flag consumes the next whole token after the group as its value
and ends the group: the remaining letters are skipped without being
resolved (the undeclared letter `z` raises no error), and the scan
continues after the consumed value token (the trailing `-a` is parsed).
The general conjunct: once a letter's `processFlag` consumes a token,
`processCombined` returns immediately, ignoring all remaining letters. -/
theorem spec_C4 :
    (Parse [specA, specN] ["-anz", "V", "-a"] =
      .ok ⟨.cons (.mk specA true "" 0 .nil)
            (.cons (.mk specN true "V" 1 .nil)
              (.cons (.mk specA true "" 2 .nil) .nil))⟩) ∧
    (∀ (c : Char) (cs : List Char) (nextArgs : List String)
        (st st' : ParseState),
      processFlag ("-" ++ String.singleton c) nextArgs st = .ok (1, st') →
      processCombined (c :: cs) nextArgs st = .ok (1, st')) := by
  refine ⟨rfl, ?_⟩
  intro c cs nextArgs st st' h
  simp [processCombined, h]

/-- C4 witness: the general cutoff applied to the group `-nz` with value
token `V`: processing `n` consumes `V` and `z` is never examined. -/
theorem spec_C4_witness :
    processCombined ['n', 'z'] ["V"] (initState (NewContext [specN] none)) =
      .ok (1, { result := .cons (.mk specN true "V" 0 .nil) .nil,
                contextStack := [NewContext [specN] none],
                parentStack := [none], nextId := 1 }) :=
  spec_C4.2 'n' ['z'] ["V"] (initState (NewContext [specN] none)) _ rfl

/-- C2 counterexample: `specGbad` has a non-empty `Children` list but
`Switch = false`, and is handed directly to `NewParser`/`Parse` (no
builder normalization is involved). The claim says a matched occurrence
is still treated as a switch — no value token consumed, empty `Value`, a
child context opened. In fact `Parse` consumes the next token `"x"` as
the flag's value: the resulting node carries `Value = "x"` (not empty)
and no children, so the claim is false for definitions passed directly
to `NewParser`. -/
theorem spec_C2_cex :
    Parse [specGbad] ["-G", "x"] =
      .ok ⟨.cons (.mk specGbad true "x" 0 .nil) .nil⟩ ∧
    specGbad.Children ≠ [] ∧ specGbad.Switch = false ∧ ("x" : String) ≠ "" :=
  ⟨rfl, by simp [specGbad, FlagDefinition.Children], rfl, by decide⟩

/-- C2 amended: the parser decides switch-ness by the `Switch` field
alone — it performs no normalization of definitions with children. When
the resolved definition has `Switch = true`, the occurrence consumes no
value token (zero extra arguments), attaches a node with `Present = true`
and empty `Value`, and, when `Children` is non-empty, pushes a child
context and the new node onto the two stacks. (Definitions with children
but `Switch = false`, possible when definitions reach `NewParser`
directly, take the value-flag path instead, as the counterexample
shows; the `Switch = true` normalization for parents happens only in
the definition builders of `cli/definition.go`.) -/
theorem spec_C2 (flag : String) (nextArgs : List String) (st : ParseState)
    (d : FlagDefinition)
    (hL : st.currentContext.Lookup flag = some d)
    (hs : d.Switch = true) (hc : d.Children ≠ []) :
    processFlag flag nextArgs st = .ok (0,
      { result := (attach st.result
          (findTargetParent st.contextStack st.parentStack flag)
          (.mk d true "" st.nextId .nil)).1,
        contextStack :=
          NewContext d.Children (some st.currentContext) :: st.contextStack,
        parentStack := some (attach st.result
          (findTargetParent st.contextStack st.parentStack flag)
          (.mk d true "" st.nextId .nil)).2 :: st.parentStack,
        nextId := st.nextId + 1 }) := by
  have hce : d.Children.isEmpty = false := by
    cases hcc : d.Children with
    | nil => exact absurd hcc hc
    | cons a l => rfl
  simp [processFlag, hL, hs, hce]

/-- C2 witness: the amended behaviour at the context flag `-G` of
`specG` (`Switch = true`, one child): zero tokens consumed, node with
empty value attached, child context and parent path pushed. -/
theorem spec_C2_witness :
    processFlag "-G" [] (initState (NewContext [specG] none)) =
      .ok (0, { result := .cons (.mk specG true "" 0 .nil) .nil,
                contextStack := [NewContext [specC] (some (NewContext [specG] none)),
                                 NewContext [specG] none],
                parentStack := [some [0], none], nextId := 1 }) :=
  spec_C2 "-G" [] (initState (NewContext [specG] none)) specG rfl rfl
    (by simp [specG, FlagDefinition.Children])

/-- C6 counterexample: `NewContext` does not reject two definitions of
the same level sharing the name `-v`: construction succeeds and `Lookup`
resolves `-v` to the later definition `specDupB`, which differs from the
earlier `specDupA` — precisely the silent last-write-wins the claim
denies. -/
theorem spec_C6_cex :
    (NewContext [specDupA, specDupB] none).Lookup "-v" = some specDupB ∧
    specDupB ≠ specDupA := by
  refine ⟨rfl, ?_⟩
  intro h
  have hd := congrArg FlagDefinition.Description h
  simp [specDupA, specDupB, FlagDefinition.Description] at hd

/-- Registering the names of one definition `d` over an accumulated map
yields `d` for any registered name (or any name `d` itself declares). -/
theorem lookupFlagMap_foldNames (d : FlagDefinition) :
    ∀ (ns : List String) (m : FlagMap) (name : String),
      (name ∈ ns ∨ lookupFlagMap m name = some d) →
      lookupFlagMap (ns.foldl (fun m n => (n, d) :: m) m) name = some d := by
  intro ns
  induction ns with
  | nil =>
    intro m name h
    rcases h with h | h
    · cases h
    · simpa using h
  | cons n ns ih =>
    intro m name h
    show lookupFlagMap (ns.foldl (fun m n => (n, d) :: m) ((n, d) :: m)) name = some d
    apply ih
    rcases h with h | h
    · rcases List.mem_cons.mp h with rfl | h2
      · right; simp [lookupFlagMap]
      · left; exact h2
    · right
      by_cases hn : n = name
      · simp [lookupFlagMap, hn]
      · simp [lookupFlagMap, hn, h]

/-- C6 amended: `NewContext` performs no duplicate detection and cannot
fail; when several definitions of the same level declare the same name,
the name silently resolves to the most recently registered definition
(last-write-wins): appending a definition declaring `name` makes it the
one `Lookup` returns, whatever came before. -/
theorem spec_C6 (defs : List FlagDefinition) (d : FlagDefinition)
    (parent : Option Context) (name : String) (h : name ∈ d.Names) :
    (NewContext (defs ++ [d]) parent).Lookup name = some d := by
  have hm : lookupFlagMap (buildFlagMap (defs ++ [d])) name = some d := by
    have hb : buildFlagMap (defs ++ [d]) =
        d.Names.foldl (fun m n => (n, d) :: m) (buildFlagMap defs) := by
      simp [buildFlagMap, List.foldl_append]
    rw [hb]
    exact lookupFlagMap_foldNames d d.Names (buildFlagMap defs) name (Or.inl h)
  cases parent with
  | none => simpa [NewContext, Context.Lookup] using hm
  | some p => simp [NewContext, Context.Lookup, hm]

/-- C6 witness: last-write-wins at the duplicate pair of `-v`
definitions. -/
theorem spec_C6_witness :
    (NewContext ([specDupA] ++ [specDupB]) none).Lookup "-v" = some specDupB :=
  spec_C6 [specDupA] specDupB none "-v"
    (by simp [specDupB, FlagDefinition.Names])

/-- The result of parsing `["-v","-v"]`: two distinct allocations of a
`-v` node (ids 0 and 1). -/
def dupResult : ParseResult :=
  ⟨.cons (.mk specV true "" 0 .nil) (.cons (.mk specV true "" 1 .nil) .nil)⟩

/-- C5 counterexample: parsing `["-v","-v"]` produces two nodes whose
definition declares `-v`; `Find "-v"` returns the first allocation
(id 0), so for the second node (id 1) — a node of the tree, queried by a
name of its own definition — `Find` returns a *different* node: the
round-trip fails as an identity (the two allocations are distinct Go
pointers, modelled by the distinct ids). -/
theorem spec_C5_cex :
    Parse [specV] ["-v", "-v"] = .ok dupResult ∧
    (FlagValue.mk specV true "" 1 .nil) ∈ dupResult.nodes ∧
    "-v" ∈ (FlagValue.mk specV true "" 1 .nil).Definition.Names ∧
    dupResult.Find "-v" = some (.mk specV true "" 0 .nil) ∧
    FlagValue.mk specV true "" 0 .nil ≠ FlagValue.mk specV true "" 1 .nil := by
  refine ⟨rfl, ?_, ?_, rfl, ?_⟩
  · exact List.mem_cons_of_mem _ (List.mem_cons_self _ _)
  · exact List.Mem.head _
  · intro h
    have hid := congrArg FlagValue.id h
    simp [FlagValue.id] at hid

mutual
/-- Characterisation: `FlagValue.Find` returns the preorder-first node of the subtree
whose definition declares the name. -/
theorem FlagValue_Find_eq_nodes (fv : FlagValue) (name : String) :
    FlagValue.Find fv name =
      (FlagValue.nodes fv).find? fun n => decide (name ∈ n.Definition.Names) := by
  cases fv with
  | mk d p v i cs =>
    by_cases h : name ∈ d.Names
    · simp [FlagValue.Find, FlagValue.nodes, List.find?_cons,
        FlagValue.Definition, h]
    · simp [FlagValue.Find, FlagValue.nodes, List.find?_cons,
        FlagValue.Definition, h, FlagValueList_Find_eq_nodes cs name]
/-- Characterisation: `FlagValueList.Find` returns the preorder-first node of the forest
whose definition declares the name. -/
theorem FlagValueList_Find_eq_nodes (l : FlagValueList) (name : String) :
    FlagValueList.Find l name =
      (FlagValueList.nodes l).find? fun n => decide (name ∈ n.Definition.Names) := by
  cases l with
  | nil => rfl
  | cons fv rest =>
    have hv := FlagValue_Find_eq_nodes fv name
    have hr := FlagValueList_Find_eq_nodes rest name
    simp only [FlagValueList.Find, FlagValueList.nodes, List.find?_append,
      ← hv, ← hr]
    cases FlagValue.Find fv name <;> rfl
end

/-- C5 amended: `Find` is exactly the preorder-first search — for every
result tree and name, `r.Find name` is the first node, in preorder
(root list order, each node before its children), whose definition
declares `name`. The identity round-trip of the original claim therefore
holds precisely when no earlier preorder node declares the queried name,
and fails otherwise (see the counterexample with a repeated flag). -/
theorem spec_C5 (r : ParseResult) (name : String) :
    r.Find name =
      r.nodes.find? fun n => decide (name ∈ n.Definition.Names) :=
  FlagValueList_Find_eq_nodes r.Flags name

/-! ## C1: stacks only grow -/

/-- Both stacks of `st'` extend those of `st`: the scan only ever pushes
(top-first representation, so growth prepends). -/
def stacksExtend (st st' : ParseState) : Prop :=
  (∃ t, st'.contextStack = t ++ st.contextStack) ∧
  (∃ t, st'.parentStack = t ++ st.parentStack)

/-- Growth is reflexive. -/
theorem stacksExtend_refl (st : ParseState) : stacksExtend st st :=
  ⟨⟨[], rfl⟩, ⟨[], rfl⟩⟩

/-- Growth composes. -/
theorem stacksExtend_trans {a b c : ParseState}
    (h1 : stacksExtend a b) (h2 : stacksExtend b c) : stacksExtend a c := by
  obtain ⟨⟨t1, ht1⟩, ⟨p1, hp1⟩⟩ := h1
  obtain ⟨⟨t2, ht2⟩, ⟨p2, hp2⟩⟩ := h2
  exact ⟨⟨t2 ++ t1, by rw [ht2, ht1, List.append_assoc]⟩,
         ⟨p2 ++ p1, by rw [hp2, hp1, List.append_assoc]⟩⟩

/-- Lemma: `processFlag` never pops: on success the stacks of the new state
extend the old ones (by nothing, or by the one pushed context level). -/
theorem processFlag_stacksExtend (flag : String) (nextArgs : List String)
    (st : ParseState) (c : Nat) (st' : ParseState)
    (h : processFlag flag nextArgs st = .ok (c, st')) :
    stacksExtend st st' := by
  unfold processFlag at h
  cases hL : Context.Lookup st.currentContext flag with
  | none => rw [hL] at h; simp at h
  | some d =>
    rw [hL] at h
    dsimp only at h
    split at h
    · split at h
      · obtain ⟨h1, h2⟩ := by simpa using h
        subst h2
        exact ⟨⟨[], rfl⟩, ⟨[], rfl⟩⟩
      · obtain ⟨h1, h2⟩ := by simpa using h
        subst h2
        exact ⟨⟨[_], rfl⟩, ⟨[_], rfl⟩⟩
    · cases nextArgs with
      | nil => simp at h
      | cons v vs =>
        obtain ⟨h1, h2⟩ := by simpa using h
        subst h2
        exact ⟨⟨[], rfl⟩, ⟨[], rfl⟩⟩

/-- Lemma: `processCombined` never pops. -/
theorem processCombined_stacksExtend :
    ∀ (letters : List Char) (nextArgs : List String) (st : ParseState)
      (c : Nat) (st' : ParseState),
      processCombined letters nextArgs st = .ok (c, st') →
      stacksExtend st st' := by
  intro letters
  induction letters with
  | nil =>
    intro nextArgs st c st' h
    obtain ⟨h1, h2⟩ := by simpa [processCombined] using h
    subst h2
    exact stacksExtend_refl st
  | cons ch cs ih =>
    intro nextArgs st c st' h
    unfold processCombined at h
    cases hP : processFlag ("-" ++ String.singleton ch) nextArgs st with
    | error e => rw [hP] at h; simp at h
    | ok pr =>
      rw [hP] at h
      obtain ⟨consumed, st1⟩ := pr
      have base := processFlag_stacksExtend _ _ _ _ _ hP
      dsimp only at h
      split at h
      · obtain ⟨h1, h2⟩ := by simpa using h
        subst h2
        exact base
      · exact stacksExtend_trans base (ih _ _ _ _ h)

/-- The scan loop never pops: the final stacks extend the initial ones. -/
theorem parseLoop_stacksExtend :
    ∀ (fuel : Nat) (args : List String) (st st' : ParseState),
      parseLoop fuel args st = .ok st' → stacksExtend st st' := by
  intro fuel
  induction fuel with
  | zero =>
    intro args st st' h
    cases args with
    | nil =>
      injection (by simpa [parseLoop] using h :
        (Except.ok st : Except String ParseState) = Except.ok st') with h2
      subst h2; exact stacksExtend_refl st
    | cons a rest =>
      injection (by simpa [parseLoop] using h :
        (Except.ok st : Except String ParseState) = Except.ok st') with h2
      subst h2; exact stacksExtend_refl st
  | succ n ih =>
    intro args st st' h
    cases args with
    | nil =>
      injection (by simpa [parseLoop] using h :
        (Except.ok st : Except String ParseState) = Except.ok st') with h2
      subst h2; exact stacksExtend_refl st
    | cons arg rest =>
      unfold parseLoop at h
      split at h
      · injection h with h2; subst h2; exact stacksExtend_refl st
      · split at h
        · exact ih _ _ _ h
        · split at h
          · cases hP : processCombined (arg.toList.drop 1) rest st with
            | error e => rw [hP] at h; simp at h
            | ok pr =>
              rw [hP] at h
              obtain ⟨consumed, st1⟩ := pr
              dsimp only at h
              exact stacksExtend_trans
                (processCombined_stacksExtend _ _ _ _ _ hP) (ih _ _ _ h)
          · cases hP : processFlag arg rest st with
            | error e => rw [hP] at h; simp at h
            | ok pr =>
              rw [hP] at h
              obtain ⟨consumed, st1⟩ := pr
              dsimp only at h
              exact stacksExtend_trans
                (processFlag_stacksExtend _ _ _ _ _ hP) (ih _ _ _ h)

/-- C1: once a context is opened it stays open for the rest of the scan.
Concretely, with context flag `-G` (child `-c`) and unrelated root
switch `-v`, parsing `["-G","-v","-c"]` succeeds and attaches `-c`'s
node as a child of `-G`'s node although `-v` sits between them; and in
general the context and parent stacks only ever grow during one `Parse`
call — whenever the loop finishes, the final stacks extend the initial
ones, and the same holds from any intermediate state onward. -/
theorem spec_C1 :
    (Parse [specG, specV] ["-G", "-v", "-c"] =
      .ok ⟨.cons (.mk specG true "" 0 (.cons (.mk specC true "" 2 .nil) .nil))
            (.cons (.mk specV true "" 1 .nil) .nil)⟩) ∧
    (∀ (fuel : Nat) (args : List String) (st st' : ParseState),
      parseLoop fuel args st = .ok st' → stacksExtend st st') :=
  ⟨rfl, parseLoop_stacksExtend⟩

/-- C1 witness: the growth statement applied to the concrete scan of
`["-v"]` from the initial state. -/
theorem spec_C1_witness :
    stacksExtend (initState (NewContext [specG, specV] none))
      { result := .cons (.mk specV true "" 0 .nil) .nil,
        contextStack := [NewContext [specG, specV] none],
        parentStack := [none], nextId := 1 } :=
  spec_C1.2 1 ["-v"] (initState (NewContext [specG, specV] none)) _ rfl

end Warg
